import Mathlib

/-!
Shallow embedding of the tsdg time-series data generator
(src/distribution.py, src/col.py, src/main.py) and proofs about it.
-/

/-- A concrete value a distribution can hold or emit: integers, strings,
or rationals (standing for Python floats). -/
inductive Val where
  | i : Int → Val
  | s : String → Val
  | q : ℚ → Val
deriving DecidableEq, Repr

/-- The distribution variants of src/distribution.py, with their immutable
parameters.  Parameter order follows each Python constructor. -/
inductive Distribution where
  | monoInc (step : ℚ)
  | monoDec (step : ℚ)
  | random (upper_bound lower_bound : ℚ)
  | randomInt (upper_bound lower_bound : Int)
  | randomString (length : Nat)
  | normal (mean std_dev : ℚ)
  | uniform (upper_bound lower_bound : ℚ)
  | noise (upper_bound lower_bound : ℚ)
  | periodic (period amplitude bias : ℚ)
  | constantString (value : String)
  | constantInt (value : Int)
  | constantFloat (value : ℚ)
  | weightedPreset (presets : List (String × ℚ))
deriving DecidableEq, Repr

/-- `self.__class__.__name__` of each variant, as used in the
"not enumerable" error message. -/
def Distribution.clsName : Distribution → String
  | .monoInc _ => "MonoInc"
  | .monoDec _ => "MonoDec"
  | .random _ _ => "Random"
  | .randomInt _ _ => "RandomInt"
  | .randomString _ => "RandomString"
  | .normal _ _ => "Normal"
  | .uniform _ _ => "Uniform"
  | .noise _ _ => "Noise"
  | .periodic _ _ _ => "Periodic"
  | .constantString _ => "ConstantString"
  | .constantInt _ => "ConstantInt"
  | .constantFloat _ => "ConstantFloat"
  | .weightedPreset _ => "WeightedPreset"

/-- Python's `range(a, b)` over integers with step 1 (half-open). -/
def pyRangeOne (a b : Int) : List Int :=
  (List.range (b - a).toNat).map (fun (k : Nat) => a + (k : Int))

/-- `Distribution.all`: the enumerable variants return their value list,
every other variant raises
`ValueError("This distribution is not enumerable: " + class name)`
(src/distribution.py, `Distribution.all` and its overrides). -/
def Distribution.all : Distribution → Except String (List Val)
  | .randomInt ub lb => .ok ((pyRangeOne lb ub).map Val.i)
  | .constantString v => .ok [Val.s v]
  | .constantInt v => .ok [Val.i v]
  | .constantFloat v => .ok [Val.q v]
  | .weightedPreset ps => .ok (ps.map (fun p => Val.s p.1))
  | d => .error ("This distribution is not enumerable: " ++ d.clsName)

/-! ## Configuration dictionaries and `Distribution.from_config` -/

/-- A configuration value, as found in the parsed YAML dictionaries. -/
inductive CVal where
  | num : ℚ → CVal
  | int : Int → CVal
  | str : String → CVal
  | preset : List (String × ℚ) → CVal
  | dict : List (String × CVal) → CVal

/-- A parsed configuration dictionary: ordered key/value pairs. -/
def Config := List (String × CVal)

/-- Dictionary lookup, first match wins (Python `config[key]`). -/
def Config.lookup (c : Config) (k : String) : Option CVal :=
  (List.find? (fun p => p.1 = k) c).map (fun p => p.2)

/-- Fetch a string entry; `KeyError` when absent, `TypeError` when
the wrong shape. -/
def Config.getStr (c : Config) (k : String) : Except String String :=
  match c.lookup k with
  | some (CVal.str s) => .ok s
  | some _ => .error ("TypeError: " ++ k)
  | none => .error ("KeyError: " ++ k)

/-- Fetch a numeric (float) entry. -/
def Config.getNum (c : Config) (k : String) : Except String ℚ :=
  match c.lookup k with
  | some (CVal.num q) => .ok q
  | some _ => .error ("TypeError: " ++ k)
  | none => .error ("KeyError: " ++ k)

/-- Fetch an integer entry. -/
def Config.getInt (c : Config) (k : String) : Except String Int :=
  match c.lookup k with
  | some (CVal.int n) => .ok n
  | some _ => .error ("TypeError: " ++ k)
  | none => .error ("KeyError: " ++ k)

/-- Fetch a preset-list entry (for `weighted_preset`). -/
def Config.getPreset (c : Config) (k : String) : Except String (List (String × ℚ)) :=
  match c.lookup k with
  | some (CVal.preset ps) => .ok ps
  | some _ => .error ("TypeError: " ++ k)
  | none => .error ("KeyError: " ++ k)

/-- `Distribution.from_config` (src/distribution.py): dispatch on the
`"type"` tag, read the required parameters, and raise
`ValueError("Unsupported distribution type: " + tag)` on an unknown tag. -/
def Distribution.from_config (c : Config) : Except String Distribution := do
  let t ← c.getStr "type"
  if t = "mono_inc" then
    return .monoInc (← c.getNum "step")
  else if t = "mono_dec" then
    return .monoDec (← c.getNum "step")
  else if t = "random" then
    return .random (← c.getNum "upper_bound") (← c.getNum "lower_bound")
  else if t = "random_int" then
    return .randomInt (← c.getInt "upper_bound") (← c.getInt "lower_bound")
  else if t = "random_string" then
    return .randomString (← c.getInt "length").toNat
  else if t = "normal" then
    return .normal (← c.getNum "mean") (← c.getNum "stddev")
  else if t = "uniform" then
    return .uniform (← c.getNum "upper_bound") (← c.getNum "lower_bound")
  else if t = "noise" then
    return .noise (← c.getNum "upper_bound") (← c.getNum "lower_bound")
  else if t = "periodic" then
    return .periodic (← c.getNum "period") (← c.getNum "amplitude") (← c.getNum "bias")
  else if t = "constant_string" then
    return .constantString (← c.getStr "value")
  else if t = "constant_int" then
    return .constantInt (← c.getInt "value")
  else if t = "constant_float" then
    return .constantFloat (← c.getNum "value")
  else if t = "weighted_preset" then
    return .weightedPreset (← c.getPreset "preset")
  else
    .error ("Unsupported distribution type: " ++ t)

/-! ## Generators as explicit state machines

Each Python generator is modelled by a step function `S → S × V`:
from the current internal state it produces the next state and the
emitted value.  Randomness (`random.uniform`, `random.randint`, …) is
modelled by an oracle stream of draws threaded through the state. -/

/-- Advance a generator `n` times from state `s`: the list of emitted
values in order, and the final state. -/
def advanceN {S V : Type} (step : S → S × V) : S → Nat → List V × S
  | s, 0 => ([], s)
  | s, n + 1 =>
    let p := step s
    let r := advanceN step p.1 n
    (p.2 :: r.1, r.2)

/-- Advance a generator through consecutive slices of the given lengths,
reusing the same state across slice boundaries, exactly as
`generate_prom_data` reuses `field_gen` across `slice_start` iterations. -/
def emitSlices {S V : Type} (step : S → S × V) (s0 : S) (sliceLens : List Nat) :
    List V × S :=
  sliceLens.foldl
    (fun acc n =>
      let r := advanceN step acc.2 n
      (acc.1 ++ r.1, r.2))
    ([], s0)

/-- `MonoInc.generator`: yield the current value, then add `step`. -/
def monoIncStep (step : ℚ) (s : ℚ) : ℚ × ℚ := (s + step, s)

/-- `MonoDec.generator`: yield the current value, then subtract `step`. -/
def monoDecStep (step : ℚ) (s : ℚ) : ℚ × ℚ := (s - step, s)

/-- `Periodic.generator`: `current = amplitude * sin(current / period) + bias`
then yield `current`.  The library sine is abstracted as `sinF`. -/
def periodicStep (period amplitude bias : ℚ) (sinF : ℚ → ℚ) (s : ℚ) : ℚ × ℚ :=
  (amplitude * sinF (s / period) + bias, amplitude * sinF (s / period) + bias)

/-- `Noise.generator`: `current += uniform(lower, upper)` then yield
`current`.  The state carries the running sum and the index into the
oracle stream `draws` of uniform samples. -/
def noiseStep (draws : Nat → ℚ) (s : ℚ × Nat) : (ℚ × Nat) × ℚ :=
  ((s.1 + draws s.2, s.2 + 1), s.1 + draws s.2)

/-- `random.randint(lo, hi)`: an inclusive uniform integer draw, modelled
from the oracle natural `r`. -/
def randint (lo hi : Int) (r : Nat) : Int :=
  lo + (r % (hi - lo + 1).toNat)

/-- `RandomInt.generator`: an independent `randint` draw per call; the
state is the index into the oracle stream. -/
def randomIntStep (lo hi : Int) (draws : Nat → Nat) (s : Nat) : Nat × Int :=
  (s + 1, randint lo hi (draws s))

/-! ## Columns (src/col.py) -/

/-- The `DataType` enum of src/col.py. -/
inductive DataType where
  | INTEGER
  | STRING
  | FLOAT
deriving DecidableEq, Repr

/-- `DataType(value)` lookup by enum value string. -/
def DataType.ofString : String → Except String DataType
  | "INTEGER" => .ok .INTEGER
  | "STRING" => .ok .STRING
  | "FLOAT" => .ok .FLOAT
  | v => .error ("ValueError: " ++ v ++ " is not a valid DataType")

/-- A column definition: name, data type, nullability, distribution. -/
structure Column where
  name : String
  type : DataType
  nullability : ℚ
  dist : Distribution

/-- Fetch a nested dictionary entry. -/
def Config.getDict (c : Config) (k : String) : Except String Config :=
  match c.lookup k with
  | some (CVal.dict d) => .ok d
  | some _ => .error ("TypeError: " ++ k)
  | none => .error ("KeyError: " ++ k)

/-- `Column.from_config` (src/col.py): every key is required; a missing
`"dist"` entry is a `KeyError`, there is no default distribution. -/
def Column.from_config (c : Config) : Except String Column := do
  let n ← c.getStr "name"
  let ty ← DataType.ofString (← c.getStr "type")
  let nl ← c.getNum "nullability"
  let dc ← c.getDict "dist"
  let d ← Distribution.from_config dc
  return ⟨n, ty, nl, d⟩

/-! ## Python dicts as ordered association lists -/

/-- `d[k] = v` on a Python dict: an existing key keeps its position and
takes the new value, a new key is appended. -/
def dictInsert {α : Type} (d : List (String × α)) (k : String) (v : α) :
    List (String × α) :=
  if d.any (fun p => p.1 = k) then
    d.map (fun p => if p.1 = k then (k, v) else p)
  else d ++ [(k, v)]

/-- Build a dict from a pair list (`dict([...])` / a dict comprehension):
insertion order, later values overwrite earlier ones for equal keys. -/
def buildDict {α : Type} (kvs : List (String × α)) : List (String × α) :=
  kvs.foldl (fun d p => dictInsert d p.1 p.2) []

/-- Association-list lookup on a built dict. -/
def dictLookup {α : Type} (d : List (String × α)) (k : String) : Option α :=
  (List.find? (fun p => p.1 = k) d).map (fun p => p.2)

/-! ## Label set enumeration (`tag_set_permutation`, src/main.py) -/

/-- One concrete combination of tag values, keyed by tag name. -/
abbrev LabelSet := List (String × Val)

/-- `itertools.product` over a list of value lists: the rightmost factor
varies fastest; the product of no factors is the singleton empty tuple. -/
def listProduct {α : Type} : List (List α) → List (List α)
  | [] => [[]]
  | l :: ls => l.flatMap (fun x => (listProduct ls).map (fun xs => x :: xs))

/-- The item list of the `tag_set` dict comprehension: enumerate each tag
column's distribution in declaration order (enumeration of a
non-enumerable one raises). -/
def tagSetItems : List Column → Except String (List (String × List Val))
  | [] => .ok []
  | t :: ts => do
    let vs ← t.dist.all
    let rest ← tagSetItems ts
    return (t.name, vs) :: rest

/-- The `tag_set` dict comprehension: the enumerated items gathered into
a name-keyed dict. -/
def tagSetDict (tags : List Column) : Except String (List (String × List Val)) := do
  let kvs ← tagSetItems tags
  return buildDict kvs

/-- `tag_set_permutation` (src/main.py): build the tag-set dict, unpack
keys/values (`zip(*tag_set.items())` raises on an empty dict), compute the
combination count by folding lengths, then materialize the Cartesian
product as one dict per combination.  Returns the reported count and the
permutation list. -/
def tag_set_permutation (tags : List Column) :
    Except String (Nat × List LabelSet) := do
  let d ← tagSetDict tags
  if d.isEmpty then
    .error "ValueError: not enough values to unpack (expected 2, got 0)"
  else
    let keys := d.map (fun p => p.1)
    let values := d.map (fun p => p.2)
    let count := values.foldl (fun c l => c * l.length) 1
    let perm := (listProduct values).map (fun v => buildDict (keys.zip v))
    return (count, perm)

/-! ## Series assembly (src/main.py, `series_generator`) -/

/-- The `series_generator` list of `generate_prom_data` /
`generate_csv_data`: one entry per label set, each holding the label set
and a field-name-keyed dict with one fresh generator per field.  A fresh
generator is identified by the distribution it was created from. -/
def seriesGeneratorList (perm : List LabelSet) (fields : List Column) :
    List (LabelSet × List (String × Distribution)) :=
  perm.map (fun s => (s, buildDict (fields.map (fun f => (f.name, f.dist)))))

/-- The `labels` dict assembled for one (series, field) pair in
`generate_prom_data`: the series' tag assignments, then
setting the metric-name label `__name__` to the field's name. -/
def promLabels (series : LabelSet) (field : String) : LabelSet :=
  dictInsert (series.foldl (fun d p => dictInsert d p.1 p.2) []) "__name__" (Val.s field)

/-! ## Time slicing (`generate_prom_data`, src/main.py) -/

/-- Python `range(a, b, step)` for a positive integer step. -/
def pyRange (a b : Int) (step : Nat) : List Int :=
  (List.range (((b - a).toNat + step - 1) / step)).map
    (fun (k : Nat) => a + (step : Int) * (k : Int))

/-- The hard-coded slice width of `generate_prom_data`: 5 minutes. -/
def time_slice : Nat := 5 * 60

/-- The ticks of one slice: `range(slice_start, slice_start + time_slice,
interval)`. -/
def sliceTicks (sliceStart : Int) (timeSlice interval : Nat) : List Int :=
  pyRange sliceStart (sliceStart + timeSlice) interval

/-- All ticks one series receives over the run: slices start at
`range(start, end, time_slice)` and each contributes its ticks. -/
def runTicks (start endTime : Int) (timeSlice interval : Nat) : List Int :=
  (pyRange start endTime timeSlice).flatMap
    (fun ss => sliceTicks ss timeSlice interval)

/-- The emitted sample timestamps of one series: each tick times the
precision factor (`timestamp = ts * precision`). -/
def runTimestamps (start endTime : Int) (timeSlice interval : Nat)
    (precision : Int) : List Int :=
  (runTicks start endTime timeSlice interval).map (fun t => t * precision)

/-! ## Batch encoder (`generate_prom_data`, src/main.py) -/

/-- The encoder's mutable state: the running sample counter `accum_size`,
the resident `time_series` buffer (one entry per appended series-slice
chunk, each a list of samples), and the batches flushed so far. -/
structure EncState (α : Type) where
  accum : Nat
  buffer : List (List α)
  flushes : List (List (List α))

/-- One iteration of the `generate_prom_data` inner loop, after the
samples of one (series, field, slice) chunk were produced: append the
chunk to `time_series`, add its sample count to `accum_size`, and flush
when `accum_size >= BATCH_SIZE`. -/
def promBatchStep {α : Type} (B : Nat) (st : EncState α) (chunk : List α) :
    EncState α :=
  let accum2 := st.accum + chunk.length
  let buf2 := st.buffer ++ [chunk]
  if B ≤ accum2 then ⟨0, [], st.flushes ++ [buf2]⟩
  else ⟨accum2, buf2, st.flushes⟩

/-- The whole encoder run over the stream of chunks, with the trailing
unconditional flush of whatever remains in the buffer. -/
def promBatchRun {α : Type} (B : Nat) (chunks : List (List α)) :
    List (List (List α)) :=
  let fin := chunks.foldl (promBatchStep B) ⟨0, [], []⟩
  fin.flushes ++ [fin.buffer]

/-- The sample count of each flushed batch. -/
def flushSampleCounts {α : Type} (B : Nat) (chunks : List (List α)) : List Nat :=
  (promBatchRun B chunks).map (fun fl => (fl.map List.length).sum)

/-! ## Parallel work partitioner -/

/-- Modelled from the spec: the Parallel Work Partitioner is absent from
src/ (src/main.py runs one sequential pipeline; only the shared counter
of src/counter.py remains).  Per the spec it "splits the full series list
into P contiguous shards with sizes differing by at most one element":
the first `N % P` shards take `⌈N/P⌉` elements, the rest `⌊N/P⌋`. -/
def shardSizes (N P : Nat) : List Nat :=
  (List.range P).map (fun i => N / P + if i < N % P then 1 else 0)

/-- Cut a list into consecutive pieces of the given sizes. -/
def splitSizes {α : Type} : List Nat → List α → List (List α)
  | [], _ => []
  | n :: ns, l => l.take n :: splitSizes ns (l.drop n)

/-- Modelled from the spec: split the series list into `P` contiguous
shards of balanced sizes. -/
def partitionShards {α : Type} (P : Nat) (l : List α) : List (List α) :=
  splitSizes (shardSizes l.length P) l

/-- Following the spec's words for the Periodic recurrence: `s_0 = 0` and
`s_{n+1} = amplitude * sin(s_n / period) + bias`, the `n`-th emitted value
being `s_n` for `n ≥ 1`. -/
def specPeriodicSeq (period amplitude bias : ℚ) (sinF : ℚ → ℚ) : Nat → ℚ
  | 0 => 0
  | n + 1 => amplitude * sinF (specPeriodicSeq period amplitude bias sinF n / period) + bias

/-- The value list of an enumerable distribution (the payload of a
successful `Distribution.all`). -/
def allList (d : Distribution) : List Val :=
  (Distribution.all d).toOption.getD []

/-- The sample count of a buffered batch. -/
def batchCount {α : Type} (fl : List (List α)) : Nat :=
  (fl.map List.length).sum

/-- The number of slices `range(start, end, time_slice)` produces. -/
def numSlices (start endTime : Int) (timeSlice : Nat) : Nat :=
  ((endTime - start).toNat + timeSlice - 1) / timeSlice

/-- The number of ticks `range(slice_start, slice_start + time_slice,
interval)` produces in one slice. -/
def numTicks (timeSlice interval : Nat) : Nat :=
  (timeSlice + interval - 1) / interval

/-! ## Helper lemmas -/

theorem advanceN_split {S V : Type} (step : S → S × V) (s : S) (k m : Nat) :
    advanceN step s (k + m) =
      ((advanceN step s k).1 ++ (advanceN step (advanceN step s k).2 m).1,
       (advanceN step (advanceN step s k).2 m).2) := by
  induction k generalizing s with
  | zero => simp [advanceN]
  | succ k ih =>
    have h : k + 1 + m = (k + m) + 1 := by omega
    rw [h]
    simp only [advanceN]
    rw [ih]
    simp

theorem emitSlices_go {S V : Type} (step : S → S × V) (ls : List Nat)
    (acc : List V) (s : S) :
    ls.foldl
        (fun a n =>
          let r := advanceN step a.2 n
          (a.1 ++ r.1, r.2))
        (acc, s) =
      (acc ++ (advanceN step s ls.sum).1, (advanceN step s ls.sum).2) := by
  induction ls generalizing acc s with
  | nil => simp [advanceN]
  | cons n ls ih =>
    simp only [List.foldl_cons, List.sum_cons]
    rw [ih, advanceN_split step s n ls.sum]
    simp

theorem emitSlices_eq_advanceN {S V : Type} (step : S → S × V) (s : S)
    (ls : List Nat) :
    emitSlices step s ls = advanceN step s ls.sum := by
  unfold emitSlices
  rw [emitSlices_go]
  simp

theorem advanceN_updateEmit (g : ℚ → ℚ) (s : ℚ) (n : Nat) :
    advanceN (fun x => (g x, g x)) s n =
      ((List.range n).map (fun i => g^[i + 1] s), g^[n] s) := by
  induction n generalizing s with
  | zero => simp [advanceN]
  | succ n ih =>
    simp only [advanceN, ih, Prod.mk.injEq]
    refine ⟨?_, (Function.iterate_succ_apply g n s).symm⟩
    rw [List.range_succ_eq_map, List.map_cons, List.map_map]
    have h1 : g^[0 + 1] s = g s := by simp
    rw [h1]
    congr 1

theorem specPeriodicSeq_iterate (period amplitude bias : ℚ) (sinF : ℚ → ℚ)
    (n : Nat) :
    specPeriodicSeq period amplitude bias sinF n =
      (fun x => amplitude * sinF (x / period) + bias)^[n] 0 := by
  induction n with
  | zero => simp [specPeriodicSeq]
  | succ n ih => rw [specPeriodicSeq, ih, Function.iterate_succ_apply']

theorem exceptBindOk {α β : Type} (a : α) (f : α → Except String β) :
    (Except.ok a : Except String α) >>= f = f a := rfl

theorem tagSetItems_eq (tags : List Column)
    (h : ∀ t ∈ tags, ∃ l, t.dist.all = .ok l) :
    tagSetItems tags = .ok (tags.map (fun t => (t.name, allList t.dist))) := by
  induction tags with
  | nil => rfl
  | cons t ts ih =>
    obtain ⟨l, hl⟩ := h t (List.mem_cons_self t ts)
    have hts := ih (fun u hu => h u (List.mem_cons_of_mem t hu))
    unfold tagSetItems
    rw [hl, exceptBindOk, hts, exceptBindOk]
    have : allList t.dist = l := by unfold allList; rw [hl]; rfl
    rw [List.map_cons, this]
    rfl

theorem dictInsert_ne_nil {α : Type} (d : List (String × α)) (k : String)
    (v : α) : dictInsert d k v ≠ [] := by
  unfold dictInsert
  split
  · rename_i hany
    cases d with
    | nil => simp at hany
    | cons p rest => simp
  · simp

theorem foldl_dictInsert_ne_nil {α : Type} (kvs d : List (String × α))
    (h : d ≠ []) :
    kvs.foldl (fun d p => dictInsert d p.1 p.2) d ≠ [] := by
  induction kvs generalizing d with
  | nil => exact h
  | cons p rest ih =>
    simp only [List.foldl_cons]
    exact ih _ (dictInsert_ne_nil _ _ _)

theorem buildDict_ne_nil {α : Type} (kvs : List (String × α)) (h : kvs ≠ []) :
    buildDict kvs ≠ [] := by
  cases kvs with
  | nil => exact absurd rfl h
  | cons p rest =>
    unfold buildDict
    simp only [List.foldl_cons]
    exact foldl_dictInsert_ne_nil _ _ (dictInsert_ne_nil _ _ _)

/-! ## Claims -/

/-- C6: for every stateful generator (Periodic, MonotonicIncrement, Noise)
and every way of splitting its advances into consecutive slices on the
same state, concatenating the per-slice emissions equals advancing in one
run; in particular Periodic advanced 5 then 5 more times emits the same
10 values as 10 consecutive advances. -/
theorem generator_state_continuity (period amplitude bias : ℚ)
    (sinF : ℚ → ℚ) (stepP : ℚ) (draws : Nat → ℚ) (s : ℚ) (ns : ℚ × Nat)
    (sliceLens : List Nat) :
    (emitSlices (periodicStep period amplitude bias sinF) s sliceLens).1 =
      (advanceN (periodicStep period amplitude bias sinF) s sliceLens.sum).1 ∧
    (emitSlices (monoIncStep stepP) s sliceLens).1 =
      (advanceN (monoIncStep stepP) s sliceLens.sum).1 ∧
    (emitSlices (noiseStep draws) ns sliceLens).1 =
      (advanceN (noiseStep draws) ns sliceLens.sum).1 ∧
    (emitSlices (periodicStep period amplitude bias sinF) 0 [5, 5]).1 =
      (advanceN (periodicStep period amplitude bias sinF) 0 10).1 := by
  refine ⟨?_, ?_, ?_, ?_⟩ <;> rw [emitSlices_eq_advanceN]
  norm_num

/-- C7: the Periodic generator starts from internal state 0, on each
advance first updates the state to `amplitude * sin(state / period) + bias`
and then emits the updated state, so the emitted sequence follows the
self-referential recurrence of the spec; when `sin 0 = 0` the first
emitted value is `bias`. -/
theorem periodic_recurrence (period amplitude bias : ℚ) (sinF : ℚ → ℚ)
    (n : Nat) (h0 : sinF 0 = 0) :
    (advanceN (periodicStep period amplitude bias sinF) 0 n).1 =
      (List.range n).map
        (fun i => specPeriodicSeq period amplitude bias sinF (i + 1)) ∧
    (advanceN (periodicStep period amplitude bias sinF) 0 n).2 =
      specPeriodicSeq period amplitude bias sinF n ∧
    (advanceN (periodicStep period amplitude bias sinF) 0 (n + 1)).1.head? =
      some bias := by
  have hg : periodicStep period amplitude bias sinF =
      (fun x => (amplitude * sinF (x / period) + bias,
                 amplitude * sinF (x / period) + bias)) := rfl
  refine ⟨?_, ?_, ?_⟩
  · rw [hg, advanceN_updateEmit]
    apply List.map_congr_left
    intro i _
    rw [specPeriodicSeq_iterate]
  · rw [hg, advanceN_updateEmit]
    rw [specPeriodicSeq_iterate]
  · rw [hg, advanceN_updateEmit]
    simp [List.range_succ_eq_map, Function.iterate_one, h0]

/-- C7 witness: concrete instantiation with the identity standing in for
the sine oracle. -/
theorem periodic_recurrence_witness :
    (advanceN (periodicStep 1 2 3 (fun x => x)) 0 2).1 =
      (List.range 2).map (fun i => specPeriodicSeq 1 2 3 (fun x => x) (i + 1)) ∧
    (advanceN (periodicStep 1 2 3 (fun x => x)) 0 2).2 =
      specPeriodicSeq 1 2 3 (fun x => x) 2 ∧
    (advanceN (periodicStep 1 2 3 (fun x => x)) 0 (2 + 1)).1.head? =
      some 3 :=
  periodic_recurrence 1 2 3 (fun x => x) 2 rfl

/-- C9: `Distribution.from_config` raises for every unrecognized type tag;
`Distribution.all` raises an error identifying the variant on every
non-enumerable variant (MonoInc, MonoDec, Random, RandomString, Normal,
Uniform, Noise, Periodic) and returns normally on the enumerable ones
(RandomInt, the three Constant variants, WeightedPreset). -/
theorem config_and_enumeration_errors :
    (∀ (c : Config) (t : String), c.getStr "type" = .ok t →
      t ∉ (["mono_inc", "mono_dec", "random", "random_int", "random_string",
            "normal", "uniform", "noise", "periodic", "constant_string",
            "constant_int", "constant_float", "weighted_preset"] : List String) →
      Distribution.from_config c = .error ("Unsupported distribution type: " ++ t)) ∧
    (∀ q : ℚ, Distribution.all (.monoInc q) =
      .error "This distribution is not enumerable: MonoInc") ∧
    (∀ q : ℚ, Distribution.all (.monoDec q) =
      .error "This distribution is not enumerable: MonoDec") ∧
    (∀ a b : ℚ, Distribution.all (.random a b) =
      .error "This distribution is not enumerable: Random") ∧
    (∀ n : Nat, Distribution.all (.randomString n) =
      .error "This distribution is not enumerable: RandomString") ∧
    (∀ a b : ℚ, Distribution.all (.normal a b) =
      .error "This distribution is not enumerable: Normal") ∧
    (∀ a b : ℚ, Distribution.all (.uniform a b) =
      .error "This distribution is not enumerable: Uniform") ∧
    (∀ a b : ℚ, Distribution.all (.noise a b) =
      .error "This distribution is not enumerable: Noise") ∧
    (∀ a b c : ℚ, Distribution.all (.periodic a b c) =
      .error "This distribution is not enumerable: Periodic") ∧
    (∀ a b : Int, ∃ l, Distribution.all (.randomInt a b) = .ok l) ∧
    (∀ v : String, Distribution.all (.constantString v) = .ok [Val.s v]) ∧
    (∀ v : Int, Distribution.all (.constantInt v) = .ok [Val.i v]) ∧
    (∀ v : ℚ, Distribution.all (.constantFloat v) = .ok [Val.q v]) ∧
    (∀ ps, Distribution.all (.weightedPreset ps) =
      .ok (ps.map (fun p => Val.s p.1))) := by
  refine ⟨?_, fun _ => rfl, fun _ => rfl, fun _ _ => rfl, fun _ => rfl,
    fun _ _ => rfl, fun _ _ => rfl, fun _ _ => rfl, fun _ _ _ => rfl,
    fun _ _ => ⟨_, rfl⟩, fun _ => rfl, fun _ => rfl, fun _ => rfl,
    fun _ => rfl⟩
  intro c t h1 h2
  simp only [List.mem_cons, List.not_mem_nil, or_false, not_or] at h2
  obtain ⟨n1, n2, n3, n4, n5, n6, n7, n8, n9, n10, n11, n12, n13⟩ := h2
  unfold Distribution.from_config
  rw [h1, exceptBindOk, if_neg n1, if_neg n2, if_neg n3, if_neg n4,
    if_neg n5, if_neg n6, if_neg n7, if_neg n8, if_neg n9, if_neg n10,
    if_neg n11, if_neg n12, if_neg n13]

/-- C9 witness: an unknown tag is rejected with the identifying message. -/
theorem config_errors_witness :
    Distribution.from_config [("type", CVal.str "fancy")] =
      .error ("Unsupported distribution type: " ++ "fancy") :=
  config_and_enumeration_errors.1 [("type", CVal.str "fancy")] "fancy" rfl
    (by decide)

/-- C10: `tag_set_permutation` is partial in its input: the empty tag list
raises (unpacking the empty dict fails) instead of returning the singleton
empty label-set, while every non-empty list of enumerable tag columns
returns normally. -/
theorem tag_permutation_empty_and_total :
    tag_set_permutation [] =
      .error "ValueError: not enough values to unpack (expected 2, got 0)" ∧
    (∀ tags : List Column, tags ≠ [] →
      (∀ t ∈ tags, ∃ l, t.dist.all = .ok l) →
      ∃ r, tag_set_permutation tags = .ok r) := by
  constructor
  · rfl
  · intro tags hne hok
    have hitems := tagSetItems_eq tags hok
    have hd : tagSetDict tags =
        .ok (buildDict (tags.map (fun t => (t.name, allList t.dist)))) := by
      unfold tagSetDict
      rw [hitems, exceptBindOk]
      rfl
    have hbne : buildDict (tags.map (fun t => (t.name, allList t.dist))) ≠ [] := by
      apply buildDict_ne_nil
      cases tags with
      | nil => exact absurd rfl hne
      | cons t ts => simp
    unfold tag_set_permutation
    rw [hd, exceptBindOk]
    cases hB : buildDict (tags.map (fun t => (t.name, allList t.dist))) with
    | nil => exact absurd hB hbne
    | cons x ds =>
      rw [if_neg (by simp)]
      exact ⟨_, rfl⟩

/-- C10 witness: a single enumerable tag column succeeds. -/
theorem tag_permutation_total_witness :
    ∃ r, tag_set_permutation [⟨"a", DataType.STRING, 0, .constantInt 1⟩] =
      .ok r :=
  tag_permutation_empty_and_total.2
    [⟨"a", DataType.STRING, 0, .constantInt 1⟩]
    (by simp)
    (by
      intro t ht
      simp only [List.mem_singleton] at ht
      subst ht
      exact ⟨[Val.i 1], rfl⟩)

/-- C2 counterexample: `RandomInt(upper_bound=3, lower_bound=1).all()` is
the half-open Python range `[1, 2]`: it has 2 values, not
`upper - lower + 1 = 3`, and does not contain the upper endpoint 3. -/
theorem randomInt_all_missing_upper :
    Distribution.all (.randomInt 3 1) = .ok [Val.i 1, Val.i 2] ∧
    Val.i 3 ∉ [Val.i 1, Val.i 2] ∧
    [Val.i 1, Val.i 2].length ≠ 3 - 1 + 1 := by
  refine ⟨rfl, ?_, by decide⟩
  decide

/-- C2 (amended): `all()` of `UniformRandomInt(lower, upper)` is the
half-open integer range `[lower, upper)` — it contains exactly the
integers `x` with `lower ≤ x < upper`, `upper - lower` of them, never the
upper endpoint — while every value the generator produces lies in the
inclusive interval `[lower, upper]`. -/
theorem randomInt_all_halfOpen (ub lb x : Int) (r : Nat) (h : lb ≤ ub) :
    Distribution.all (.randomInt ub lb) = .ok ((pyRangeOne lb ub).map Val.i) ∧
    (x ∈ pyRangeOne lb ub ↔ lb ≤ x ∧ x < ub) ∧
    (pyRangeOne lb ub).length = (ub - lb).toNat ∧
    lb ≤ randint lb ub r ∧ randint lb ub r ≤ ub := by
  refine ⟨rfl, ?_, by simp [pyRangeOne], ?_, ?_⟩
  · unfold pyRangeOne
    simp only [List.mem_map, List.mem_range]
    constructor
    · rintro ⟨k, hk, rfl⟩
      omega
    · rintro ⟨h1, h2⟩
      exact ⟨(x - lb).toNat, by omega, by omega⟩
  · unfold randint
    have : (0 : Int) ≤ ((r % (ub - lb + 1).toNat : Nat) : Int) := Int.ofNat_nonneg _
    omega
  · unfold randint
    have hm : 0 < (ub - lb + 1).toNat := by omega
    have hlt : r % (ub - lb + 1).toNat < (ub - lb + 1).toNat := Nat.mod_lt _ hm
    have : ((r % (ub - lb + 1).toNat : Nat) : Int) < ((ub - lb + 1).toNat : Int) :=
      Int.ofNat_lt.mpr hlt
    omega

/-- C2 witness: concrete bounds 1 ≤ 3. -/
theorem randomInt_all_halfOpen_witness :
    Distribution.all (.randomInt 3 1) = .ok ((pyRangeOne 1 3).map Val.i) ∧
    ((2 : Int) ∈ pyRangeOne 1 3 ↔ (1 : Int) ≤ 2 ∧ (2 : Int) < 3) ∧
    (pyRangeOne 1 3).length = ((3 : Int) - 1).toNat ∧
    (1 : Int) ≤ randint 1 3 5 ∧ randint 1 3 5 ≤ 3 :=
  randomInt_all_halfOpen 3 1 2 5 (by decide)

theorem shardSizes_length (N P : Nat) : (shardSizes N P).length = P := by
  simp [shardSizes]

theorem sum_range_map_add_ite (q r P : Nat) (h : r ≤ P) :
    ((List.range P).map (fun i => q + if i < r then 1 else 0)).sum =
      P * q + r := by
  induction P with
  | zero => simp at h; simp [h]
  | succ P ih =>
    rw [List.range_succ, List.map_append, List.sum_append]
    by_cases hr : r ≤ P
    · rw [ih hr]
      have : ¬ P < r := by omega
      simp [this]
      ring
    · have hrP : r = P + 1 := by omega
      subst hrP
      have hmap : (List.range P).map (fun i => q + if i < P + 1 then 1 else 0) =
          (List.range P).map (fun _ => q + 1) := by
        apply List.map_congr_left
        intro i hi
        rw [List.mem_range] at hi
        simp [Nat.lt_succ_of_lt hi]
      rw [hmap]
      have hsum : ((List.range P).map (fun _ => q + 1)).sum = P * (q + 1) := by
        rw [List.map_const', List.sum_replicate, List.length_range, smul_eq_mul]
      rw [hsum]
      simp [Nat.lt_succ_self]
      ring

theorem shardSizes_sum (N P : Nat) (hP : 0 < P) :
    (shardSizes N P).sum = N := by
  unfold shardSizes
  rw [sum_range_map_add_ite (N / P) (N % P) P (Nat.le_of_lt (Nat.mod_lt N hP))]
  exact Nat.div_add_mod N P

theorem splitSizes_length {α : Type} (ns : List Nat) (l : List α) :
    (splitSizes ns l).length = ns.length := by
  induction ns generalizing l with
  | nil => rfl
  | cons n ns ih => simp [splitSizes, ih]

theorem splitSizes_flatten {α : Type} (ns : List Nat) (l : List α)
    (h : ns.sum = l.length) : (splitSizes ns l).flatten = l := by
  induction ns generalizing l with
  | nil =>
    simp only [List.sum_nil] at h
    have hl : l = [] := List.eq_nil_of_length_eq_zero h.symm
    simp [splitSizes, hl]
  | cons n ns ih =>
    simp only [List.sum_cons] at h
    simp only [splitSizes, List.flatten_cons]
    rw [ih _ (by simp [List.length_drop]; omega)]
    exact List.take_append_drop n l

theorem splitSizes_map_length {α : Type} (ns : List Nat) (l : List α)
    (h : ns.sum = l.length) :
    (splitSizes ns l).map List.length = ns := by
  induction ns generalizing l with
  | nil => rfl
  | cons n ns ih =>
    simp only [List.sum_cons] at h
    simp only [splitSizes, List.map_cons]
    rw [ih _ (by simp [List.length_drop]; omega)]
    rw [List.length_take]
    congr 1
    omega

theorem shardSizes_mem (N P x : Nat) (hx : x ∈ shardSizes N P) :
    x = N / P ∨ (N % P ≠ 0 ∧ x = N / P + 1) := by
  unfold shardSizes at hx
  rw [List.mem_map] at hx
  obtain ⟨i, hi, rfl⟩ := hx
  by_cases h : i < N % P
  · right
    constructor
    · omega
    · simp [h]
  · left
    simp [h]

/-- C5 (spec-modelled): the Parallel Work Partitioner splits a series
list of length N into P contiguous shards whose sizes sum to N, each of
size ⌊N/P⌋ or ⌊N/P⌋+1 (the latter only when P does not divide N, where
⌊N/P⌋+1 = ⌈N/P⌉), and whose concatenation is the original list — so the
union of shard contents equals the original list with no element dropped,
duplicated, or shared between shards. -/
theorem partitioner_balanced {α : Type} (l : List α) (P : Nat) (sh : List α)
    (hP : 0 < P) (hsh : sh ∈ partitionShards P l) :
    (partitionShards P l).length = P ∧
    ((partitionShards P l).map List.length).sum = l.length ∧
    (sh.length = l.length / P ∨
      (l.length % P ≠ 0 ∧ sh.length = l.length / P + 1)) ∧
    (partitionShards P l).flatten = l := by
  have hsum : (shardSizes l.length P).sum = l.length := shardSizes_sum _ _ hP
  refine ⟨?_, ?_, ?_, ?_⟩
  · unfold partitionShards
    rw [splitSizes_length, shardSizes_length]
  · unfold partitionShards
    rw [splitSizes_map_length _ _ hsum, hsum]
  · apply shardSizes_mem
    unfold partitionShards at hsh
    have hmap := splitSizes_map_length (shardSizes l.length P) l hsum
    rw [← hmap]
    exact List.mem_map_of_mem List.length hsh
  · exact splitSizes_flatten _ _ hsum

/-- C5 witness: five series across two shards give sizes 3 and 2. -/
theorem partitioner_balanced_witness :
    (partitionShards 2 [10, 11, 12, 13, 14]).length = 2 ∧
    ((partitionShards 2 [10, 11, 12, 13, 14]).map List.length).sum =
      [10, 11, 12, 13, 14].length ∧
    (([10, 11, 12] : List Nat).length = [10, 11, 12, 13, 14].length / 2 ∨
      ([10, 11, 12, 13, 14] : List Nat).length % 2 ≠ 0 ∧
      ([10, 11, 12] : List Nat).length = [10, 11, 12, 13, 14].length / 2 + 1) ∧
    (partitionShards 2 [10, 11, 12, 13, 14]).flatten = [10, 11, 12, 13, 14] :=
  partitioner_balanced [10, 11, 12, 13, 14] 2 [10, 11, 12] (by decide)
    (by decide)

theorem promBatch_invariant {α : Type} (B c : Nat) (chunks : List (List α))
    (st : EncState α) (hB : 0 < B)
    (hacc : st.accum = batchCount st.buffer)
    (hlt : st.accum < B)
    (hfl : ∀ fl ∈ st.flushes, B ≤ batchCount fl ∧ batchCount fl ≤ B - 1 + c)
    (hc : ∀ ch ∈ chunks, ch.length ≤ c) :
    (chunks.foldl (promBatchStep B) st).accum =
      batchCount (chunks.foldl (promBatchStep B) st).buffer ∧
    (chunks.foldl (promBatchStep B) st).accum < B ∧
    (∀ fl ∈ (chunks.foldl (promBatchStep B) st).flushes,
      B ≤ batchCount fl ∧ batchCount fl ≤ B - 1 + c) ∧
    (chunks.foldl (promBatchStep B) st).flushes.flatten ++
        (chunks.foldl (promBatchStep B) st).buffer =
      st.flushes.flatten ++ st.buffer ++ chunks := by
  induction chunks generalizing st with
  | nil => exact ⟨hacc, hlt, hfl, by simp⟩
  | cons ch chunks ih =>
    simp only [List.foldl_cons]
    have hch : ch.length ≤ c := hc ch (List.mem_cons_self ch chunks)
    have hc2 : ∀ x ∈ chunks, x.length ≤ c :=
      fun x hx => hc x (List.mem_cons_of_mem ch hx)
    by_cases hflush : B ≤ st.accum + ch.length
    · have hstep : promBatchStep B st ch =
          ⟨0, [], st.flushes ++ [st.buffer ++ [ch]]⟩ := by
        unfold promBatchStep
        rw [if_pos hflush]
      rw [hstep]
      have hnewfl : ∀ fl ∈ st.flushes ++ [st.buffer ++ [ch]],
          B ≤ batchCount fl ∧ batchCount fl ≤ B - 1 + c := by
        intro fl hmem
        rw [List.mem_append, List.mem_singleton] at hmem
        rcases hmem with hmem | rfl
        · exact hfl fl hmem
        · unfold batchCount
          rw [List.map_append, List.sum_append]
          simp only [List.map_cons, List.map_nil, List.sum_cons, List.sum_nil]
          unfold batchCount at hacc
          omega
      have := ih ⟨0, [], st.flushes ++ [st.buffer ++ [ch]]⟩ rfl hB hnewfl hc2
      refine ⟨this.1, this.2.1, this.2.2.1, ?_⟩
      rw [this.2.2.2]
      simp
    · have hstep : promBatchStep B st ch =
          ⟨st.accum + ch.length, st.buffer ++ [ch], st.flushes⟩ := by
        unfold promBatchStep
        rw [if_neg hflush]
      rw [hstep]
      have hacc2 : st.accum + ch.length = batchCount (st.buffer ++ [ch]) := by
        unfold batchCount at hacc ⊢
        rw [List.map_append, List.sum_append]
        simp [hacc]
      have := ih ⟨st.accum + ch.length, st.buffer ++ [ch], st.flushes⟩ hacc2
        (show st.accum + ch.length < B by omega) hfl hc2
      refine ⟨this.1, this.2.1, this.2.2.1, ?_⟩
      rw [this.2.2.2]
      simp

/-- C1 counterexample: with BATCH_SIZE 10 and two appended series-slice
chunks of 6 samples each, the flush check (which only runs after a whole
chunk is appended, with `accum_size >= BATCH_SIZE`) produces one non-final
flush of 12 samples — not exactly 10 — so the resident buffer exceeds one
batch's worth. -/
theorem batch_flush_oversized :
    flushSampleCounts 10 [[0, 1, 2, 3, 4, 5], [6, 7, 8, 9, 10, 11]] =
      [12, 0] ∧ (12 : Nat) ≠ 10 := by
  constructor
  · rfl
  · decide

/-- C1 (amended): the encoder flushes exactly when the accumulated sample
counter has reached BATCH_SIZE after appending a series-slice chunk; every
non-final flush then holds at least BATCH_SIZE samples and at most
BATCH_SIZE - 1 plus one chunk's worth, the concatenation of all flushed
batches is exactly the appended chunk stream (no sample dropped or
duplicated), and when every chunk holds a single sample the flushes are
exactly BATCH_SIZE; with BATCH_SIZE 10 and 25 single-sample chunks there
are exactly three flushes of 10, 10 and 5 samples. -/
theorem batch_encoder_amended {α : Type} (B c : Nat) (chunks : List (List α))
    (fl : List (List α)) (hB : 0 < B)
    (hc : ∀ ch ∈ chunks, ch.length ≤ c)
    (hfl : fl ∈ (chunks.foldl (promBatchStep B) ⟨0, [], []⟩).flushes) :
    (promBatchRun B chunks).flatten = chunks ∧
    B ≤ batchCount fl ∧ batchCount fl ≤ B - 1 + c ∧
    flushSampleCounts 10 (List.replicate 25 ([0] : List Nat)) =
      [10, 10, 5] := by
  have hinv := promBatch_invariant B c chunks ⟨0, [], []⟩ hB rfl hB
    (by intro fl hmem; simp at hmem) hc
  refine ⟨?_, (hinv.2.2.1 fl hfl).1, (hinv.2.2.1 fl hfl).2, by rfl⟩
  unfold promBatchRun
  rw [List.flatten_append]
  simp only [List.flatten_cons, List.flatten_nil, List.append_nil]
  have := hinv.2.2.2
  simpa using this

/-- C1 witness: BATCH_SIZE 3 over five single-sample chunks; the first
flush holds exactly 3 samples. -/
theorem batch_encoder_amended_witness :
    (promBatchRun 3 [[0], [1], [2], [3], [4]]).flatten =
      [[0], [1], [2], [3], [4]] ∧
    3 ≤ batchCount [[(0 : Nat)], [1], [2]] ∧
    batchCount [[(0 : Nat)], [1], [2]] ≤ 3 - 1 + 1 ∧
    flushSampleCounts 10 (List.replicate 25 ([0] : List Nat)) =
      [10, 10, 5] :=
  batch_encoder_amended 3 1 [[0], [1], [2], [3], [4]] [[0], [1], [2]]
    (by decide) (by decide) (by decide)

theorem exceptBindErr {α β : Type} (e : String) (f : α → Except String β) :
    (Except.error e : Except String α) >>= f = .error e := rfl

theorem foldl_dictInsert_eq_append {α : Type} (kvs acc : List (String × α))
    (h : ((acc ++ kvs).map Prod.fst).Nodup) :
    kvs.foldl (fun d p => dictInsert d p.1 p.2) acc = acc ++ kvs := by
  induction kvs generalizing acc with
  | nil => simp
  | cons p rest ih =>
    simp only [List.foldl_cons]
    have hnotin : p.1 ∉ acc.map Prod.fst := by
      intro hin
      rw [List.map_append, List.nodup_append] at h
      exact h.2.2 hin (by simp)
    have hany : ¬ acc.any (fun q => q.1 = p.1) = true := by
      intro hra
      rw [List.any_eq_true] at hra
      obtain ⟨q, hq, hq1⟩ := hra
      rw [decide_eq_true_iff] at hq1
      exact hnotin (hq1 ▸ List.mem_map_of_mem Prod.fst hq)
    have hins : dictInsert acc p.1 p.2 = acc ++ [p] := by
      unfold dictInsert
      rw [if_neg hany]
    rw [hins, ih (acc ++ [p]) (by simpa using h)]
    simp

theorem buildDict_eq_self {α : Type} (kvs : List (String × α))
    (h : (kvs.map Prod.fst).Nodup) : buildDict kvs = kvs := by
  unfold buildDict
  have := foldl_dictInsert_eq_append kvs [] (by simpa using h)
  simpa using this

theorem find_replaced {α : Type} (d : List (String × α)) (k : String) (v : α)
    (h : d.any (fun p => p.1 = k) = true) :
    List.find? (fun p => p.1 = k)
      (d.map (fun p => if p.1 = k then (k, v) else p)) = some (k, v) := by
  induction d with
  | nil => simp at h
  | cons p rest ih =>
    simp only [List.map_cons]
    by_cases hp : p.1 = k
    · rw [if_pos hp]
      rw [List.find?_cons_of_pos _ (by simp)]
    · rw [if_neg hp]
      rw [List.find?_cons_of_neg _ (by simp [hp])]
      apply ih
      simp only [List.any_cons, Bool.or_eq_true, decide_eq_true_iff] at h
      rcases h with h | h
      · exact absurd h hp
      · exact h

theorem find_appended {α : Type} (d : List (String × α)) (k : String) (v : α)
    (h : ¬ d.any (fun p => p.1 = k) = true) :
    List.find? (fun p => p.1 = k) (d ++ [(k, v)]) = some (k, v) := by
  induction d with
  | nil => simp
  | cons p rest ih =>
    simp only [List.any_cons, Bool.or_eq_true, decide_eq_true_iff, not_or] at h
    rw [List.cons_append, List.find?_cons_of_neg _ (by simp [h.1])]
    exact ih (by simp [h.2])

theorem dictLookup_dictInsert {α : Type} (d : List (String × α)) (k : String)
    (v : α) : dictLookup (dictInsert d k v) k = some v := by
  unfold dictInsert dictLookup
  by_cases h : d.any (fun p => p.1 = k) = true
  · rw [if_pos h, find_replaced d k v h]
    rfl
  · rw [if_neg h, find_appended d k v h]
    rfl

theorem columnFromConfig_needs_dist (c : Config) (col : Column)
    (h : Column.from_config c = .ok col) : c.lookup "dist" ≠ none := by
  intro hnone
  have hdict : c.getDict "dist" = .error ("KeyError: " ++ "dist") := by
    unfold Config.getDict
    rw [hnone]
  unfold Column.from_config at h
  cases h1 : c.getStr "name" with
  | error e => rw [h1, exceptBindErr] at h; exact Except.noConfusion h
  | ok n =>
    rw [h1, exceptBindOk] at h
    cases h2 : c.getStr "type" with
    | error e => rw [h2, exceptBindErr] at h; exact Except.noConfusion h
    | ok ty =>
      rw [h2, exceptBindOk] at h
      cases h3 : DataType.ofString ty with
      | error e => rw [h3, exceptBindErr] at h; exact Except.noConfusion h
      | ok dt =>
        rw [h3, exceptBindOk] at h
        cases h4 : c.getNum "nullability" with
        | error e => rw [h4, exceptBindErr] at h; exact Except.noConfusion h
        | ok nl =>
          rw [h4, exceptBindOk, hdict, exceptBindErr] at h
          exact Except.noConfusion h

/-- C4 counterexample: a field column configuration without a "dist" entry
raises KeyError instead of falling back to a default uniform-float
generator, and two fields sharing one name collapse to a single generator
entry rather than one per (label-set, field) pair. -/
theorem series_assembly_no_fallback :
    Column.from_config [("name", CVal.str "f"), ("type", CVal.str "FLOAT"),
        ("nullability", CVal.num 0)] = .error ("KeyError: " ++ "dist") ∧
    (seriesGeneratorList [[("a", Val.s "x")]]
        [⟨"f", DataType.FLOAT, 0, .monoInc 1⟩,
         ⟨"f", DataType.FLOAT, 0, .monoInc 2⟩]).map
      (fun p => p.2.length) = [1] := by
  exact ⟨rfl, rfl⟩

/-- C4 (amended): series assembly instantiates exactly one generator per
(label-set, field-name) pair — the field dict holds one generator per
distinct field name, in declaration order when names are distinct — every
field must carry an explicit distribution configuration (a column is only
ever constructed when "dist" is present; a missing one is a KeyError, with
no default fallback), and the labels built for a (series, field) pair map
the reserved "__name__" key to the field's name. -/
theorem series_assembly_amended (perm : List LabelSet) (fields : List Column)
    (p : LabelSet × List (String × Distribution)) (c : Config) (col : Column)
    (series : LabelSet) (f : String)
    (hnd : (fields.map Column.name).Nodup)
    (hp : p ∈ seriesGeneratorList perm fields)
    (hok : Column.from_config c = .ok col) :
    (seriesGeneratorList perm fields).length = perm.length ∧
    p.2 = fields.map (fun fl => (fl.name, fl.dist)) ∧
    dictLookup (promLabels series f) "__name__" = some (Val.s f) ∧
    c.lookup "dist" ≠ none := by
  refine ⟨by simp [seriesGeneratorList], ?_, ?_,
    columnFromConfig_needs_dist c col hok⟩
  · unfold seriesGeneratorList at hp
    rw [List.mem_map] at hp
    obtain ⟨s, hs, rfl⟩ := hp
    show buildDict (fields.map fun fl => (fl.name, fl.dist)) = _
    apply buildDict_eq_self
    rw [List.map_map]
    exact hnd
  · unfold promLabels
    exact dictLookup_dictInsert _ _ _

/-- C4 witness: one label set, one field named cpu, a well-formed column
configuration. -/
theorem series_assembly_amended_witness :
    (seriesGeneratorList [[("a", Val.s "x")]]
      [⟨"cpu", DataType.FLOAT, 0, .monoInc 1⟩]).length =
        [[("a", Val.s "x")]].length ∧
    ([("a", Val.s "x")], [("cpu", Distribution.monoInc 1)]).2 =
      [⟨"cpu", DataType.FLOAT, 0, .monoInc 1⟩].map
        (fun fl : Column => (fl.name, fl.dist)) ∧
    dictLookup (promLabels [("a", Val.s "x")] "cpu") "__name__" =
      some (Val.s "cpu") ∧
    Config.lookup [("name", CVal.str "f"), ("type", CVal.str "FLOAT"),
      ("nullability", CVal.num 0),
      ("dist", CVal.dict [("type", CVal.str "mono_inc"),
        ("step", CVal.num 1)])] "dist" ≠ none :=
  series_assembly_amended [[("a", Val.s "x")]]
    [⟨"cpu", DataType.FLOAT, 0, .monoInc 1⟩]
    ([("a", Val.s "x")], [("cpu", Distribution.monoInc 1)])
    [("name", CVal.str "f"), ("type", CVal.str "FLOAT"),
      ("nullability", CVal.num 0),
      ("dist", CVal.dict [("type", CVal.str "mono_inc"),
        ("step", CVal.num 1)])]
    ⟨"f", DataType.FLOAT, 0, .monoInc 1⟩
    [("a", Val.s "x")] "cpu"
    (by simp)
    (by simp [seriesGeneratorList, buildDict, dictInsert])
    rfl

theorem sum_map_const {α : Type} (l : List α) (c : Nat) :
    (l.map (fun _ => c)).sum = l.length * c := by
  rw [List.map_const', List.sum_replicate, smul_eq_mul]

theorem listProduct_length {α : Type} (ls : List (List α)) :
    (listProduct ls).length = (ls.map List.length).prod := by
  induction ls with
  | nil => rfl
  | cons l ls ih =>
    simp only [listProduct, List.map_cons, List.prod_cons]
    rw [List.length_flatMap]
    have hconst : List.map
          (List.length ∘ fun x => List.map (fun xs => x :: xs) (listProduct ls)) l =
        l.map (fun _ => (listProduct ls).length) := by
      apply List.map_congr_left
      intro x _
      simp [Function.comp]
    rw [hconst, sum_map_const, ih]

theorem listProduct_mem_length {α : Type} (ls : List (List α)) (v : List α)
    (hv : v ∈ listProduct ls) : v.length = ls.length := by
  induction ls generalizing v with
  | nil =>
    simp only [listProduct, List.mem_singleton] at hv
    simp [hv]
  | cons l ls ih =>
    simp only [listProduct, List.mem_flatMap, List.mem_map] at hv
    obtain ⟨x, hx, w, hw, rfl⟩ := hv
    simp [ih w hw]

theorem listProduct_nodup {α : Type} (ls : List (List α))
    (h : ∀ l ∈ ls, l.Nodup) : (listProduct ls).Nodup := by
  induction ls with
  | nil => simp [listProduct]
  | cons l ls ih =>
    simp only [listProduct]
    rw [List.nodup_flatMap]
    constructor
    · intro x _
      apply List.Nodup.map
      · intro a b hab
        exact (List.cons.injEq x a x b).mp hab |>.2
      · exact ih (fun u hu => h u (List.mem_cons_of_mem l hu))
    · have hl := h l (List.mem_cons_self l ls)
      apply List.Pairwise.imp ?_ hl
      intro a b hne z hz1 hz2
      rw [List.mem_map] at hz1 hz2
      obtain ⟨w1, _, rfl⟩ := hz1
      obtain ⟨w2, _, heq⟩ := hz2
      exact hne ((List.cons.injEq b w2 a w1).mp heq).1.symm

theorem foldl_mul_length {α : Type} (values : List (List α)) (init : Nat) :
    values.foldl (fun c l => c * l.length) init =
      init * (values.map List.length).prod := by
  induction values generalizing init with
  | nil => simp
  | cons l ls ih =>
    simp only [List.foldl_cons, List.map_cons, List.prod_cons]
    rw [ih]
    ring

theorem tagSetItems_shape (tags : List Column) (kvs : List (String × List Val))
    (h : tagSetItems tags = .ok kvs) :
    kvs = tags.map (fun t => (t.name, allList t.dist)) := by
  induction tags generalizing kvs with
  | nil =>
    simp only [tagSetItems] at h
    rw [List.map_nil]
    exact (Except.ok.inj h).symm
  | cons t ts ih =>
    unfold tagSetItems at h
    cases ha : t.dist.all with
    | error e => rw [ha, exceptBindErr] at h; exact Except.noConfusion h
    | ok l =>
      rw [ha, exceptBindOk] at h
      cases hts : tagSetItems ts with
      | error e => rw [hts, exceptBindErr] at h; exact Except.noConfusion h
      | ok rest =>
        rw [hts, exceptBindOk] at h
        have hal : allList t.dist = l := by unfold allList; rw [ha]; rfl
        rw [List.map_cons, ← ih rest hts, hal]
        exact (Except.ok.inj h).symm

/-- C8 counterexample: two tag columns sharing the name "a", with 2 and 1
enumerated values, collapse in the name-keyed tag-set dict: the reported
count is 1 and one label-set is produced, not the product 2 * 1 = 2. -/
theorem tag_permutation_duplicate_names :
    tag_set_permutation
        [⟨"a", DataType.STRING, 0, .weightedPreset [("x", 1), ("y", 1)]⟩,
         ⟨"a", DataType.STRING, 0, .constantInt 1⟩] =
      .ok (1, [[("a", Val.i 1)]]) ∧
    (1 : Nat) ≠ 2 * 1 := by
  exact ⟨rfl, by decide⟩

/-- C8 (amended): for tag columns with pairwise distinct names whose
distributions enumerate successfully, the reported combination count is
the product of the columns' enumerated-set sizes (the count is computed by
folding the enumeration lengths, independently of the materialized
product), exactly count label-sets are produced, each label-set's keys are
the tag names in declaration order, and the label-sets are pairwise
distinct whenever each column's enumerated values are distinct. -/
theorem tag_permutation_product (tags : List Column) (cnt : Nat)
    (perm : List LabelSet) (ls : LabelSet)
    (hnd : (tags.map Column.name).Nodup)
    (hok : tag_set_permutation tags = .ok (cnt, perm))
    (hls : ls ∈ perm) :
    cnt = (tags.map (fun t => (allList t.dist).length)).prod ∧
    perm.length = cnt ∧
    ls.map Prod.fst = tags.map Column.name ∧
    ((∀ t ∈ tags, (allList t.dist).Nodup) → perm.Nodup) := by
  cases hti : tagSetItems tags with
  | error e =>
    exfalso
    unfold tag_set_permutation tagSetDict at hok
    rw [hti, exceptBindErr, exceptBindErr] at hok
    exact Except.noConfusion hok
  | ok kvs =>
    have hkvs : kvs = tags.map (fun t => (t.name, allList t.dist)) :=
      tagSetItems_shape tags kvs hti
    have hkeys : kvs.map (fun p => p.1) = tags.map Column.name := by
      rw [hkvs, List.map_map]
      rfl
    have hvals : kvs.map (fun p => p.2) = tags.map (fun t => allList t.dist) := by
      rw [hkvs, List.map_map]
      rfl
    have hkfst : (kvs.map Prod.fst).Nodup := by
      have h2 : (kvs.map (fun p => p.1)).Nodup := hkeys ▸ hnd
      exact h2
    have hbd : buildDict kvs = kvs := buildDict_eq_self kvs hkfst
    have hd : tagSetDict tags = .ok kvs := by
      unfold tagSetDict
      rw [hti, exceptBindOk, hbd]
      rfl
    unfold tag_set_permutation at hok
    rw [hd, exceptBindOk] at hok
    have hne : kvs.isEmpty = false := by
      cases hkc : kvs with
      | nil =>
        exfalso
        rw [hkc] at hok
        simp at hok
      | cons kv rest => rfl
    rw [if_neg (by simp [hne])] at hok
    have hinj := Except.ok.inj hok
    rw [Prod.mk.injEq] at hinj
    obtain ⟨hcnt, hperm⟩ := hinj
    have hzipbd : ∀ v : List Val, v.length = kvs.length →
        buildDict ((kvs.map (fun p => p.1)).zip v) =
          (kvs.map (fun p => p.1)).zip v := by
      intro v hv
      apply buildDict_eq_self
      rw [List.map_fst_zip _ _ (by rw [List.length_map, hv])]
      exact hkeys ▸ hnd
    refine ⟨?_, ?_, ?_, ?_⟩
    · rw [← hcnt, foldl_mul_length, one_mul, hvals, List.map_map]
      rfl
    · rw [← hperm, ← hcnt, List.length_map, listProduct_length,
        foldl_mul_length, one_mul]
    · rw [← hperm, List.mem_map] at hls
      obtain ⟨v, hv, rfl⟩ := hls
      have hvlen : v.length = kvs.length := by
        rw [listProduct_mem_length _ v hv, List.length_map]
      rw [hzipbd v hvlen,
        List.map_fst_zip _ _ (by rw [List.length_map, hvlen]), hkeys]
    · intro hvnd
      rw [← hperm]
      have hprodnd : (listProduct (kvs.map (fun p => p.2))).Nodup := by
        apply listProduct_nodup
        intro l hl
        rw [hvals, List.mem_map] at hl
        obtain ⟨t, ht, rfl⟩ := hl
        exact hvnd t ht
      apply List.Nodup.map_on ?_ hprodnd
      intro v1 hv1 v2 hv2 heq
      have hl1 : v1.length = kvs.length := by
        rw [listProduct_mem_length _ v1 hv1, List.length_map]
      have hl2 : v2.length = kvs.length := by
        rw [listProduct_mem_length _ v2 hv2, List.length_map]
      rw [hzipbd v1 hl1, hzipbd v2 hl2] at heq
      have hsnd := congrArg (List.map Prod.snd) heq
      rw [List.map_snd_zip _ _ (by rw [List.length_map, hl1]),
        List.map_snd_zip _ _ (by rw [List.length_map, hl2])] at hsnd
      exact hsnd

/-- C8 witness: tag A with 2 enumerated values and tag B with 3 produce
count 6 and 6 distinct label-sets. -/
theorem tag_permutation_product_witness :
    (6 : Nat) =
      ([⟨"A", DataType.STRING, 0, .weightedPreset [("x", 1), ("y", 1)]⟩,
        ⟨"B", DataType.STRING, 0,
          .weightedPreset [("u", 1), ("v", 1), ("w", 1)]⟩].map
        (fun t : Column => (allList t.dist).length)).prod ∧
    ([[("A", Val.s "x"), ("B", Val.s "u")], [("A", Val.s "x"), ("B", Val.s "v")],
      [("A", Val.s "x"), ("B", Val.s "w")], [("A", Val.s "y"), ("B", Val.s "u")],
      [("A", Val.s "y"), ("B", Val.s "v")],
      [("A", Val.s "y"), ("B", Val.s "w")]] : List LabelSet).length = 6 ∧
    ([("A", Val.s "x"), ("B", Val.s "u")] : LabelSet).map Prod.fst =
      [⟨"A", DataType.STRING, 0, .weightedPreset [("x", 1), ("y", 1)]⟩,
       ⟨"B", DataType.STRING, 0,
         .weightedPreset [("u", 1), ("v", 1), ("w", 1)]⟩].map Column.name ∧
    ((∀ t ∈ ([⟨"A", DataType.STRING, 0, .weightedPreset [("x", 1), ("y", 1)]⟩,
        ⟨"B", DataType.STRING, 0,
          .weightedPreset [("u", 1), ("v", 1), ("w", 1)]⟩] : List Column),
        (allList t.dist).Nodup) →
      ([[("A", Val.s "x"), ("B", Val.s "u")], [("A", Val.s "x"), ("B", Val.s "v")],
        [("A", Val.s "x"), ("B", Val.s "w")], [("A", Val.s "y"), ("B", Val.s "u")],
        [("A", Val.s "y"), ("B", Val.s "v")],
        [("A", Val.s "y"), ("B", Val.s "w")]] : List LabelSet).Nodup) :=
  tag_permutation_product
    [⟨"A", DataType.STRING, 0, .weightedPreset [("x", 1), ("y", 1)]⟩,
     ⟨"B", DataType.STRING, 0, .weightedPreset [("u", 1), ("v", 1), ("w", 1)]⟩]
    6
    [[("A", Val.s "x"), ("B", Val.s "u")], [("A", Val.s "x"), ("B", Val.s "v")],
     [("A", Val.s "x"), ("B", Val.s "w")], [("A", Val.s "y"), ("B", Val.s "u")],
     [("A", Val.s "y"), ("B", Val.s "v")], [("A", Val.s "y"), ("B", Val.s "w")]]
    [("A", Val.s "x"), ("B", Val.s "u")]
    (by decide) (by rfl) (by decide)

theorem sliceTicks_eq (A : Int) (ts iv : Nat) :
    sliceTicks A ts iv = (List.range (numTicks ts iv)).map
      (fun (k : Nat) => A + (iv : Int) * (k : Int)) := by
  unfold sliceTicks pyRange numTicks
  congr 2
  rw [add_sub_cancel_left, Int.toNat_natCast]

theorem runTicks_eq (start endTime : Int) (ts iv : Nat) :
    runTicks start endTime ts iv =
      (List.range (numSlices start endTime ts)).flatMap
        (fun (j : Nat) => (List.range (numTicks ts iv)).map
          (fun (k : Nat) =>
            start + (ts : Int) * (j : Int) + (iv : Int) * (k : Int))) := by
  unfold runTicks pyRange numSlices
  rw [List.flatMap_map]
  congr 1
  funext j
  rw [sliceTicks_eq]

theorem mem_runTicks (start endTime : Int) (ts iv : Nat) (x : Int) :
    x ∈ runTicks start endTime ts iv ↔
      ∃ j k : Nat, j < numSlices start endTime ts ∧ k < numTicks ts iv ∧
        x = start + (ts : Int) * (j : Int) + (iv : Int) * (k : Int) := by
  rw [runTicks_eq]
  simp only [List.mem_flatMap, List.mem_map, List.mem_range]
  constructor
  · rintro ⟨j, hj, k, hk, rfl⟩
    exact ⟨j, k, hj, hk, rfl⟩
  · rintro ⟨j, k, hj, hk, rfl⟩
    exact ⟨j, hj, k, hk, rfl⟩

theorem numTicks_pos (ts iv : Nat) (hts : 0 < ts) (hiv : 0 < iv) :
    0 < numTicks ts iv := by
  unfold numTicks
  apply Nat.div_pos (by omega) hiv

theorem numTicks_mul_lt (ts iv : Nat) (hts : 0 < ts) (hiv : 0 < iv) :
    iv * (numTicks ts iv - 1) < ts := by
  have h2 : 0 < numTicks ts iv := numTicks_pos ts iv hts hiv
  obtain ⟨n, hn⟩ : ∃ n, numTicks ts iv = n + 1 :=
    ⟨numTicks ts iv - 1, by omega⟩
  have h1 : numTicks ts iv * iv ≤ ts + iv - 1 := Nat.div_mul_le_self _ _
  rw [hn] at h1 ⊢
  simp only [Nat.add_sub_cancel]
  have h4 : (n + 1) * iv = iv * n + iv := by ring
  rw [h4] at h1
  omega

theorem pairwise_flatMap_of (n : Nat) (f : Nat → List Int)
    (hin : ∀ j : Nat, (f j).Pairwise (fun a b => a < b))
    (hcross : ∀ j1 j2 : Nat, j1 < j2 → ∀ x ∈ f j1, ∀ y ∈ f j2, x < y) :
    ((List.range n).flatMap f).Pairwise (fun a b => a < b) := by
  induction n with
  | zero => simp
  | succ n ih =>
    rw [List.range_succ, List.flatMap_append]
    rw [List.pairwise_append]
    refine ⟨ih, ?_, ?_⟩
    · simp only [List.flatMap_cons, List.flatMap_nil, List.append_nil]
      exact hin n
    · intro a ha b hb
      rw [List.mem_flatMap] at ha
      obtain ⟨j, hj, haj⟩ := ha
      rw [List.mem_range] at hj
      simp only [List.flatMap_cons, List.flatMap_nil, List.append_nil] at hb
      exact hcross j n hj a haj b hb

theorem runTicks_sorted (start endTime : Int) (ts iv : Nat)
    (hts : 0 < ts) (hiv : 0 < iv) :
    (runTicks start endTime ts iv).Pairwise (fun a b => a < b) := by
  rw [runTicks_eq]
  apply pairwise_flatMap_of
  · intro j
    rw [List.pairwise_map]
    apply List.Pairwise.imp ?_ (List.pairwise_lt_range _)
    intro k1 k2 hklt
    have hcast : (k1 : Int) < (k2 : Int) := by exact_mod_cast hklt
    have hivpos : (0 : Int) < (iv : Int) := by exact_mod_cast hiv
    have := mul_lt_mul_of_pos_left hcast hivpos
    linarith
  · intro j1 j2 hj x hx y hy
    rw [List.mem_map] at hx hy
    obtain ⟨k1, hk1, rfl⟩ := hx
    obtain ⟨k2, hk2, rfl⟩ := hy
    rw [List.mem_range] at hk1 hk2
    have hiv1 : (iv : Int) * (k1 : Int) < (ts : Int) := by
      have hNat : iv * k1 < ts :=
        lt_of_le_of_lt (Nat.mul_le_mul_left iv (by omega))
          (numTicks_mul_lt ts iv hts hiv)
      exact_mod_cast hNat
    have hts2 : (ts : Int) * (j1 : Int) + (ts : Int) ≤
        (ts : Int) * (j2 : Int) := by
      have hNat : ts * (j1 + 1) ≤ ts * j2 := Nat.mul_le_mul_left ts (by omega)
      have hcast : ((ts * (j1 + 1) : Nat) : Int) ≤ ((ts * j2 : Nat) : Int) := by
        exact_mod_cast hNat
      push_cast at hcast
      linarith
    have hk2n : (0 : Int) ≤ (iv : Int) * (k2 : Int) := by positivity
    linarith

theorem numSlices_dvd (start endTime : Int) (ts : Nat) (hts : 0 < ts)
    (hdvd : (ts : Int) ∣ (endTime - start)) (hse : start ≤ endTime) :
    ((numSlices start endTime ts : Nat) : Int) * (ts : Int) =
      endTime - start := by
  obtain ⟨m, hm⟩ := hdvd
  have htsZ : (0 : Int) < (ts : Int) := by exact_mod_cast hts
  have hm0 : 0 ≤ m := by
    by_contra hneg
    push_neg at hneg
    have : (ts : Int) * m < 0 := mul_neg_of_pos_of_neg htsZ hneg
    omega
  have hmm : ((m.toNat : Nat) : Int) = m := Int.toNat_of_nonneg hm0
  have hcast : endTime - start = ((ts * m.toNat : Nat) : Int) := by
    rw [hm]
    push_cast
    rw [hmm]
  have htoNat : (endTime - start).toNat = ts * m.toNat := by
    rw [hcast, Int.toNat_natCast]
  have hnum : numSlices start endTime ts = m.toNat := by
    unfold numSlices
    rw [htoNat]
    have hsplit : ts * m.toNat + ts - 1 = ts * m.toNat + (ts - 1) := by omega
    rw [hsplit, Nat.mul_add_div hts, Nat.div_eq_of_lt (by omega)]
    omega
  rw [hnum, hmm, hm]
  ring

theorem flatMap_range_product (n m : Nat) (f : Nat → Int) :
    (List.range n).flatMap
      (fun j => (List.range m).map (fun k => f (m * j + k))) =
    (List.range (n * m)).map f := by
  induction n with
  | zero => simp
  | succ n ih =>
    rw [List.range_succ, List.flatMap_append, ih]
    simp only [List.flatMap_cons, List.flatMap_nil, List.append_nil]
    have hnm : (n + 1) * m = n * m + m := by ring
    rw [hnm, List.range_add, List.map_append, List.map_map]
    congr 1
    apply List.map_congr_left
    intro k _
    simp only [Function.comp]
    congr 1
    ring

theorem runTicks_progression (start endTime : Int) (ts iv : Nat)
    (hiv : 0 < iv) (hdiv : iv ∣ ts) :
    runTicks start endTime ts iv =
      (List.range (numSlices start endTime ts * numTicks ts iv)).map
        (fun (k : Nat) => start + (iv : Int) * (k : Int)) := by
  have hnT : iv * numTicks ts iv = ts := by
    obtain ⟨q, rfl⟩ := hdiv
    unfold numTicks
    have hsplit : iv * q + iv - 1 = iv * q + (iv - 1) := by omega
    rw [hsplit, Nat.mul_add_div hiv, Nat.div_eq_of_lt (by omega)]
    simp
  rw [runTicks_eq, ← flatMap_range_product]
  congr 1
  funext j
  apply List.map_congr_left
  intro k _
  have hZ : ((iv : Int)) * ((numTicks ts iv : Nat) : Int) = ((ts : Nat) : Int) := by
    exact_mod_cast hnT
  push_cast
  rw [← hZ]
  ring

/-- C3 counterexample: with the hard-coded 5-minute slice width, start 0,
end 400 and interval 100, the last slice overruns the configured range:
tick 400 (and 500) is emitted although it is not below end = 400. -/
theorem timestamps_overrun :
    runTicks 0 400 time_slice 100 = [0, 100, 200, 300, 400, 500] ∧
    (400 : Int) ∈ runTicks 0 400 time_slice 100 ∧
    ¬ ((400 : Int) < 400) := by
  refine ⟨rfl, ?_, by decide⟩
  rw [show runTicks 0 400 time_slice 100 = [0, 100, 200, 300, 400, 500]
    from rfl]
  decide

/-- C3 (amended): each emitted timestamp is its tick times the precision
factor; the ticks of one series are strictly increasing and never precede
start; every tick stays below end provided the slice width divides
end - start (otherwise the final slice can overrun, as the counterexample
shows); and the ticks are exactly the arithmetic progression
start, start + interval, start + 2*interval, ... provided the interval
additionally divides the slice width. -/
theorem timestamps_amended (start endTime : Int) (timeSlice interval : Nat)
    (precision t : Int)
    (hts : 0 < timeSlice) (hiv : 0 < interval)
    (ht : t ∈ runTicks start endTime timeSlice interval) :
    runTimestamps start endTime timeSlice interval precision =
      (runTicks start endTime timeSlice interval).map
        (fun x => x * precision) ∧
    (runTicks start endTime timeSlice interval).Pairwise
      (fun a b => a < b) ∧
    start ≤ t ∧
    ((timeSlice : Int) ∣ (endTime - start) → t < endTime) ∧
    (interval ∣ timeSlice →
      runTicks start endTime timeSlice interval =
        (List.range
          (numSlices start endTime timeSlice * numTicks timeSlice interval)).map
          (fun (k : Nat) => start + (interval : Int) * (k : Int))) := by
  refine ⟨rfl, runTicks_sorted start endTime timeSlice interval hts hiv,
    ?_, ?_, fun hdiv => runTicks_progression start endTime timeSlice interval
      hiv hdiv⟩
  · rw [mem_runTicks] at ht
    obtain ⟨j, k, hj, hk, rfl⟩ := ht
    have h1 : (0 : Int) ≤ (timeSlice : Int) * (j : Int) := by positivity
    have h2 : (0 : Int) ≤ (interval : Int) * (k : Int) := by positivity
    linarith
  · intro hdvd
    rw [mem_runTicks] at ht
    obtain ⟨j, k, hj, hk, rfl⟩ := ht
    by_cases hse : start ≤ endTime
    · have hiv1 : (interval : Int) * (k : Int) < (timeSlice : Int) := by
        have hNat : interval * k < timeSlice :=
          lt_of_le_of_lt (Nat.mul_le_mul_left interval (by omega))
            (numTicks_mul_lt timeSlice interval hts hiv)
        exact_mod_cast hNat
      have hnm := numSlices_dvd start endTime timeSlice hts hdvd hse
      have hts2 : (timeSlice : Int) * (j : Int) + (timeSlice : Int) ≤
          (timeSlice : Int) * ((numSlices start endTime timeSlice : Nat) : Int) := by
        have hNat : timeSlice * (j + 1) ≤
            timeSlice * numSlices start endTime timeSlice :=
          Nat.mul_le_mul_left timeSlice (by omega)
        have hcast : ((timeSlice * (j + 1) : Nat) : Int) ≤
            ((timeSlice * numSlices start endTime timeSlice : Nat) : Int) := by
          exact_mod_cast hNat
        push_cast at hcast
        linarith
      linarith [hnm]
    · exfalso
      push_neg at hse
      have hzero : numSlices start endTime timeSlice = 0 := by
        unfold numSlices
        have h0 : (endTime - start).toNat = 0 := by omega
        rw [h0]
        exact Nat.div_eq_of_lt (by omega)
      omega

/-- C3 witness: start 0, end 600, slice width 300, interval 100,
precision 1000, tick 100. -/
theorem timestamps_amended_witness :
    runTimestamps 0 600 300 100 1000 =
      (runTicks 0 600 300 100).map (fun x => x * 1000) ∧
    (runTicks 0 600 300 100).Pairwise (fun a b => a < b) ∧
    (0 : Int) ≤ 100 ∧
    ((300 : Int) ∣ ((600 : Int) - 0) → (100 : Int) < 600) ∧
    ((100 : Nat) ∣ 300 →
      runTicks 0 600 300 100 =
        (List.range (numSlices 0 600 300 * numTicks 300 100)).map
          (fun (k : Nat) => 0 + (100 : Int) * (k : Int))) :=
  timestamps_amended 0 600 300 100 1000 100 (by decide) (by decide)
    (by decide)
